import Mathlib

/-!
Verification of the Retrieval-Augmented Answering Engine
(`services/rag_api/core/rag_core.py`).

The Python strings are modelled as `List Char` (`Str`); external
collaborators (vector store, reranker model, generation backend) are
modelled as function parameters, with `Option` results for fallible
network calls (`none` = exception or non-200 status).  Rational numbers
stand for the Python floats; every constant appearing in the source
(0.3, 0.2, 2.0, 0.1, 100, 10) is an exactly representable rational, so
all comparisons performed by the code are faithfully reproduced.
-/

abbrev Str : Type := List Char

/-- `text.lower()` on a Python string. -/
def lowerL (s : Str) : Str := s.map Char.toLower

/-- `text.strip()` on a Python string: drop whitespace at both ends. -/
def trimL (s : Str) : Str :=
  ((s.dropWhile (·.isWhitespace)).reverse.dropWhile (·.isWhitespace)).reverse

/-- `text.split()` on a Python string: split on whitespace runs and
drop the empty pieces. -/
def wordsOf (s : Str) : List Str :=
  (s.splitOnP (·.isWhitespace)).filter (fun w => !w.isEmpty)

/-- `" ".join(ws)`. -/
def joinWords : List Str → Str
  | [] => []
  | [w] => w
  | w :: ws => w ++ ' ' :: joinWords ws

/-- `sep.join(xs)` for an arbitrary separator. -/
def joinSep (sep : Str) : List Str → Str
  | [] => []
  | [x] => x
  | x :: xs => x ++ sep ++ joinSep sep xs

/-- Numeric value of a decimal digit string, as computed by `int(m)`. -/
def digitsVal (ds : Str) : ℕ := ds.foldl (fun a c => 10 * a + (c.toNat - 48)) 0

/-- Decimal rendering of a natural number, as in the f-string `f"[{i}]"`. -/
def natChars (n : ℕ) : Str := Nat.toDigits 10 n

/-- Is `p` a character-wise prefix of `s`? -/
def startsWithCh : Str → Str → Bool
  | [], _ => true
  | _ :: _, [] => false
  | a :: as, b :: bs => a = b && startsWithCh as bs

/-- The Python substring test `kw in s`. -/
def containsSub (kw : Str) : Str → Bool
  | [] => kw.isEmpty
  | c :: rest => startsWithCh kw (c :: rest) || containsSub kw rest

/-! ### Citation extraction: `re.findall(r"\[(\d+)\]", answer)`

`facGo` scans the character list left to right.  On a `[` it reads the
maximal run of digits; if that run is non-empty and followed by `]` the
token is recorded and scanning resumes after the `]`, otherwise the scan
resumes right after the `[` (digits cannot start a match, so this is
exactly the regex engine's restart-at-next-position behaviour).  The
fuel argument only bounds the recursion; `l.length` steps always
suffice because every step consumes at least one character. -/

def facGo : ℕ → Str → List ℕ
  | 0, _ => []
  | fuel + 1, l =>
    match l with
    | [] => []
    | c :: rest =>
      if c = '[' then
        if (rest.takeWhile Char.isDigit) ≠ [] ∧
            (rest.dropWhile Char.isDigit).head? = some ']' then
          digitsVal (rest.takeWhile Char.isDigit) ::
            facGo fuel (rest.dropWhile Char.isDigit).tail
        else facGo fuel rest
      else facGo fuel rest

/-- All `[n]` citation tokens occurring in `answer`, in order. -/
def findAllCites (l : Str) : List ℕ := facGo l.length l

/-- `RagCore._has_valid_citations(answer, k)`: at least one `[n]` token,
and every token's value lies in `[1, k]`. -/
def hasValidCitations (answer : Str) (k : ℕ) : Bool :=
  let ms := findAllCites answer
  !ms.isEmpty && ms.all (fun n => decide (1 ≤ n) && decide (n ≤ k))

/-- Specification-level notion of a citation token: the text decomposes
as `pre ++ "[" ++ ds ++ "]" ++ post` with `ds` a non-empty digit run of
value `n`. -/
def HasCiteTok (l : Str) (n : ℕ) : Prop :=
  ∃ pre ds post, l = pre ++ '[' :: (ds ++ ']' :: post) ∧ ds ≠ [] ∧
    (∀ c ∈ ds, c.isDigit) ∧ digitsVal ds = n

/-! ### Chunking: `RagCore.chunk_text`

The source loop is

    i, n = 0, len(words)
    while i < n:
        j = min(i + max_tokens, n)
        chunks.append(" ".join(words[i:j]))
        if j == n: break
        i = max(0, j - overlap_tokens)

`chunkLoop` returns the list of word-index windows `(i, j)`; the fuel
argument makes the possibly non-terminating loop a total function, with
`none` meaning the loop did not finish within the given number of
iterations.  `max(0, j - overlap_tokens)` is exactly truncated
subtraction on `ℕ`. -/

def chunkNextIndex (maxW ovW n i : ℕ) : ℕ := min (i + maxW) n - ovW

def chunkLoop (maxW ovW n : ℕ) : ℕ → ℕ → Option (List (ℕ × ℕ))
  | 0, _ => none
  | fuel + 1, i =>
    if i < n then
      let j := min (i + maxW) n
      if j = n then some [(i, j)]
      else (chunkLoop maxW ovW n fuel (j - ovW)).map (fun rest => (i, j) :: rest)
    else some []

/-- Word-index windows produced by `chunk_text`; `n + 1` iterations are
enough whenever the source loop terminates at all. -/
def chunkWindows (text : Str) (maxW ovW : ℕ) : Option (List (ℕ × ℕ)) :=
  let ws := wordsOf text
  if ws.isEmpty then some []
  else chunkLoop maxW ovW ws.length (ws.length + 1) 0

/-- `" ".join(words[i:j])` for a window. -/
def renderChunk (ws : List Str) (p : ℕ × ℕ) : Str :=
  joinWords ((ws.drop p.1).take (p.2 - p.1))

/-- `RagCore.chunk_text(text, max_tokens, overlap_tokens)`. -/
def chunk_text (text : Str) (maxW ovW : ℕ) : Option (List Str) :=
  (chunkWindows text maxW ovW).map (fun ws => ws.map (renderChunk (wordsOf text)))

/-! ### Data model -/

/-- A retrieved passage `{id, text, doc_id, score}`. -/
structure Passage where
  id : String
  text : Str
  doc_id : String
  score : ℚ

instance : Inhabited Passage := ⟨⟨"", [], "", 0⟩⟩

/-- A `contextMap` entry `{index, doc_id, chunk_id, score}`. -/
structure CtxEntry where
  index : ℕ
  doc_id : String
  chunk_id : String
  score : ℚ

instance : Inhabited CtxEntry := ⟨⟨0, "", "", 0⟩⟩

/-- Result dictionary of `ask_local`. -/
structure AskResult where
  route : String
  answer : Str
  contextMap : List CtxEntry

/-- Result dictionary of `ask_local_with_model_selection`. -/
structure AskResultMS where
  route : String
  answer : Str
  contextMap : List CtxEntry
  model_used : String
  detected_domain : String
  domain_confidence : ℚ
  task_type : String

/-- The fields of `RagConfig` that the core decision logic reads,
with the source defaults. -/
structure RagConfig where
  topk : ℕ := 12
  context_k : ℕ := 4
  ollama_model : String := "phi3.5:3.8b-mini-instruct-q4_0"
  code_generation_model : String := "codellama:13b"
  code_explanation_model : String := "codellama:13b"
  general_chat_model : String := "llama3.1:8b"
  technical_model : String := "llama3.1:70b"
  min_confidence_threshold : ℚ := 7/10

def defaultCfg : RagConfig := {}

/-! ### Reranker: `RagCore.rerank`

`sorted(range(len(passages)), key=lambda i: scores[i], reverse=True)` is
Python's stable sort taken descending by score: its output is the unique
permutation of the index list that is sorted by "higher score first,
and original position first among equal scores".  `rerankLe` is exactly
that total order, and `mergeSort` produces the sorted permutation. -/

def rerankLe (scores : List ℚ) (a b : ℕ) : Bool :=
  decide (scores.getD b 0 < scores.getD a 0) ||
    (decide (scores.getD a 0 = scores.getD b 0) && decide (a ≤ b))

def rerankOrder (scores : List ℚ) : List ℕ :=
  (List.range scores.length).mergeSort (rerankLe scores)

/-- `scores = self.reranker.predict([(query, p["text"]) for p in passages])`. -/
def rerankScores (scorer : Str → Str → ℚ) (query : Str)
    (passages : List Passage) : List ℚ :=
  passages.map (fun p => scorer query p.text)

/-- `RagCore.rerank(query, passages)`; the cross-encoder
`self.reranker.predict` is the `scorer` parameter. -/
def rerank (scorer : Str → Str → ℚ) (query : Str) (passages : List Passage) :
    List Passage × List ℚ :=
  if passages.isEmpty then ([], [])
  else
    let scores := rerankScores scorer query passages
    let order := rerankOrder scores
    (order.map (fun i => passages.getD i default),
     order.map (fun i => scores.getD i 0))

/-! ### Prompt builder: `RagCore.build_prompt` -/

/-- One numbered context line `[i] text (file: doc_id, chunk #id)`. -/
def numberedLine (ip : ℕ × Passage) : Str :=
  '[' :: natChars ip.1 ++ ']' :: ' ' :: trimL ip.2.text ++
    " (file: ".toList ++ ip.2.doc_id.toList ++ ", chunk #".toList ++
    ip.2.id.toList ++ [')']

/-- The numbered context lines for the first `k` ranked passages. -/
def numberedLines (ranked : List Passage) (k : ℕ) : List Str :=
  (List.enumFrom 1 (ranked.take k)).map numberedLine

/-- The context-map entries mirroring `numberedLines`. -/
def contextEntries (ranked : List Passage) (k : ℕ) : List CtxEntry :=
  (List.enumFrom 1 (ranked.take k)).map
    (fun ip => ⟨ip.1, ip.2.doc_id, ip.2.id, ip.2.score⟩)

def sysInstruction : Str :=
  ("Answer ONLY using [CONTEXT]. If not present, reply exactly: not found.\n" ++
   "Every sentence MUST end with [n] citations from [CONTEXT]. Do not invent sources. Be concise.").toList

/-- The full prompt text.  After f-string interpolation the multi-line
`sys` and `ctx` insertions start at column zero, so `textwrap.dedent`
finds an empty common prefix and leaves the template unchanged. -/
def promptText (ctx query : Str) : Str :=
  "\n        [SYSTEM]\n        ".toList ++ sysInstruction ++
  "\n\n        [CONTEXT]\n        ".toList ++ ctx ++
  "\n\n        [QUESTION]\n        ".toList ++ query ++
  ("\n\n        [INSTRUCTIONS]\n        - Each sentence ends with citation(s) like [1] or [1][2]\n        - If unsupported, reply: not found\n        ").toList

/-- `RagCore.build_prompt(query, ranked, k)` returning `(prompt, cmap)`. -/
def build_prompt (query : Str) (ranked : List Passage) (k : ℕ) :
    Str × List CtxEntry :=
  (promptText (joinSep "\n\n".toList (numberedLines ranked k)) query,
   contextEntries ranked k)

/-! ### Domain classifier: `RagCore.detect_domain`

The keyword table is copied verbatim from `RagCore.__init__`, including
its capitalisation (`"API"` is compared against lower-cased text and so
can never match) and the duplicated `"deployment"` entry in the
technical list. -/

def financeKws : List Str := (["loan", "mortgage", "investment", "portfolio",
  "risk", "compliance", "financial", "banking", "credit", "debt", "fico",
  "basel", "securities", "fund", "trading"]).map String.toList

def legalKws : List Str := (["contract", "agreement", "liability", "clause",
  "jurisdiction", "lawsuit", "legal", "court", "attorney", "law",
  "litigation", "statute", "regulation", "breach", "defendant"]).map String.toList

def medicalKws : List Str := (["patient", "diagnosis", "treatment",
  "medication", "symptoms", "medical", "health", "doctor", "hospital",
  "clinical", "therapy", "prescription", "vital", "cardiac", "ecg",
  "oxygen"]).map String.toList

def technicalKws : List Str := (["API", "configuration", "deployment",
  "architecture", "protocol", "system", "software", "code", "programming",
  "technical", "server", "database", "network", "framework", "algorithm",
  ".net", "dotnet", "csharp", "async", "await", "task", "dependency",
  "injection", "minimal", "controllers", "middleware", "hosting",
  "services", "entity", "azure", "functions", "durable", "orchestrator",
  "activity", "checkpointing", "retry", "workflow", "cosmos", "storage",
  "servicebus", "eventhub", "cognitive", "kubernetes", "docker",
  "container", "microservices", "terraform", "yaml", "pipeline", "ci/cd",
  "devops", "infrastructure", "provisioning", "automation", "bicep",
  "arm", "cloudformation", "ansible", "helm", "kubectl", "deployment",
  "scaling", "microservice", "distributed", "event-driven", "saga",
  "cqrs", "event-sourcing", "domain-driven", "observability",
  "monitoring", "logging", "tracing", "metrics", "telemetry", "security",
  "authentication"]).map String.toList

def educationKws : List Str := (["student", "course", "curriculum",
  "academic", "education", "learning", "teaching", "university", "school",
  "grade", "assessment", "instruction", "pedagogy", "enrollment",
  "degree"]).map String.toList

/-- `self.domain_keywords`, in dict insertion order. -/
def domainKeywords : List (String × List Str) :=
  [("finance", financeKws), ("legal", legalKws), ("medical", medicalKws),
   ("technical", technicalKws), ("education", educationKws),
   ("general", [])]

/-- `sum(1 for keyword in keywords if keyword in text_lower)`. -/
def countMatches (textLower : Str) (kws : List Str) : ℕ :=
  kws.countP (fun kw => containsSub kw textLower)

/-- Score of one non-general domain, from the matches/base/boost formula. -/
def scoreForDomain (textLower : Str) (wordCount : ℕ) (kws : List Str) : ℚ :=
  let nMatches := countMatches textLower kws
  if !kws.isEmpty ∧ 0 < nMatches then
    let base : ℚ := min 1 ((nMatches : ℚ) / max 10 ((kws.length : ℚ) * (3/10)))
    let boost : ℚ := min 2 ((nMatches : ℚ) / max 1 ((wordCount : ℚ) / 100))
    base * (1 + boost * (2/10))
  else 0

/-- `domain_scores` in iteration order, skipping `"general"`. -/
def domainScores (text : Str) : List (String × ℚ) :=
  (domainKeywords.filter (fun p => p.1 ≠ "general")).map
    (fun p => (p.1, scoreForDomain (lowerL text) (wordsOf text).length p.2))

/-- `max(items, key=lambda x: x[1])`: keeps the first of equal maxima. -/
def bestByScore (x : String × ℚ) (xs : List (String × ℚ)) : String × ℚ :=
  xs.foldl (fun b p => if b.2 < p.2 then p else b) x

/-- `RagCore.detect_domain(text)`. -/
def detect_domain (minConf : ℚ) (text : Str) : String × ℚ :=
  match domainScores text with
  | [] => ("general", 1)
  | x :: xs =>
    let best := bestByScore x xs
    if max (1/10) (minConf * (3/10)) ≤ best.2 then best
    else ("general", 1)

/-! ### Model router -/

/-- `RagCore._get_available_model`'s fallback list, in source order:
the configured default model comes first, then the fixed names. -/
def fallbackList (cfg : RagConfig) : List String :=
  [cfg.ollama_model, "llama3.1:70b", "llama3.1:8b",
   "mixtral:8x7b-instruct-v0.1-q4_0", "codellama:13b",
   "phi3.5:3.8b-mini-instruct-q4_0"]

/-- `RagCore._get_available_model(preferred_model)`; the availability
cache is the `avail` parameter. -/
def getAvailableModel (avail : List String) (cfg : RagConfig)
    (preferred : String) : String :=
  if avail.contains preferred then preferred
  else
    match (fallbackList cfg).find? (fun f => avail.contains f) with
    | some f => f
    | none => preferred

/-- Modelled from the spec: the documented five-entry fallback order
(most-capable general → balanced general → strong instruction →
code-specialist → smallest/fastest), which omits the configured default
model that the source tries first. -/
def specFallbackOrder : List String :=
  ["llama3.1:70b", "llama3.1:8b", "mixtral:8x7b-instruct-v0.1-q4_0",
   "codellama:13b", "phi3.5:3.8b-mini-instruct-q4_0"]

/-- Modelled from the spec: resolution against the documented order. -/
def specResolveAvailable (avail : List String) (preferred : String) : String :=
  if avail.contains preferred then preferred
  else
    match specFallbackOrder.find? (fun f => avail.contains f) with
    | some f => f
    | none => preferred

def codeQueryKeywords : List Str :=
  (["code", "programming", "function", "class", "method", "api",
    "algorithm", "debug"]).map String.toList

/-- `RagCore.select_model_for_task(task_type, domain, query)`. -/
def selectModelForTask (avail : List String) (cfg : RagConfig)
    (taskType domainName : String) (query : Str) : String :=
  if taskType = "code_generation" then
    getAvailableModel avail cfg cfg.code_generation_model
  else if taskType = "code_explanation" then
    getAvailableModel avail cfg cfg.code_explanation_model
  else if taskType = "technical" ∨ domainName = "technical" then
    getAvailableModel avail cfg cfg.technical_model
  else if codeQueryKeywords.any (fun kw => containsSub kw (lowerL query)) then
    getAvailableModel avail cfg cfg.technical_model
  else
    getAvailableModel avail cfg cfg.general_chat_model

/-! ### Generation calls

`_ollama_generate` / `_ollama_generate_with_model` both try the
`/api/generate` endpoint and fall back to `/api/chat`; every exception
is swallowed and a final failure returns the empty string.  `none`
models an exception or a non-200 status of the respective call. -/

def ollamaGenerate (genP genC : Str → Option Str) (prompt : Str) : Str :=
  match genP prompt with
  | some s => s
  | none =>
    match genC prompt with
    | some s => s
    | none => []

def ollamaGenerateWithModel (model : String)
    (genP genC : String → Str → Option Str) (prompt : Str) : Str :=
  match genP model prompt with
  | some s => s
  | none =>
    match genC model prompt with
    | some s => s
    | none => []

/-! ### Answer engine -/

/-- The stripped generated answer `ans` computed inside `ask_local`. -/
def localAnswer (cfg : RagConfig) (scorer : Str → Str → ℚ)
    (hits : List Passage) (genP genC : Str → Option Str)
    (query : Str) : Str :=
  trimL (ollamaGenerate genP genC
    (build_prompt query (rerank scorer query hits).1 cfg.context_k).1)

/-- `RagCore.ask_local(query)`; retrieval (`self.search`) is the
pre-computed `hits` parameter. -/
def ask_local (cfg : RagConfig) (scorer : Str → Str → ℚ)
    (hits : List Passage) (genP genC : Str → Option Str)
    (query : Str) : AskResult :=
  let pc := build_prompt query (rerank scorer query hits).1 cfg.context_k
  let ans := localAnswer cfg scorer hits genP genC query
  if ans ≠ [] ∧ lowerL ans ≠ "not found".toList ∧
      hasValidCitations ans cfg.context_k then
    ⟨"local", ans, pc.2⟩
  else
    ⟨"abstain", "not found".toList, pc.2⟩

/-- The model resolved inside `ask_local_with_model_selection`. -/
def wmsModel (cfg : RagConfig) (avail : List String) (query : Str)
    (taskType : String) : String :=
  selectModelForTask avail cfg taskType
    (detect_domain cfg.min_confidence_threshold query).1 query

/-- The stripped generated answer `ans` computed inside
`ask_local_with_model_selection`. -/
def wmsAnswer (cfg : RagConfig) (avail : List String)
    (scorer : Str → Str → ℚ) (hits : List Passage)
    (genP genC : String → Str → Option Str)
    (query : Str) (taskType : String) : Str :=
  trimL (ollamaGenerateWithModel (wmsModel cfg avail query taskType) genP genC
    (build_prompt query (rerank scorer query hits).1 cfg.context_k).1)

/-- `RagCore.ask_local_with_model_selection(query, task_type)`. -/
def askLocalWithModelSelection (cfg : RagConfig) (avail : List String)
    (scorer : Str → Str → ℚ) (hits : List Passage)
    (genP genC : String → Str → Option Str)
    (query : Str) (taskType : String) : AskResultMS :=
  let dm := detect_domain cfg.min_confidence_threshold query
  let pc := build_prompt query (rerank scorer query hits).1 cfg.context_k
  let ans := wmsAnswer cfg avail scorer hits genP genC query taskType
  if ans ≠ [] ∧ lowerL ans ≠ "not found".toList ∧
      hasValidCitations ans cfg.context_k then
    ⟨"local", ans, pc.2, wmsModel cfg avail query taskType, dm.1, dm.2, taskType⟩
  else
    ⟨"abstain", "not found".toList, pc.2, wmsModel cfg avail query taskType,
      dm.1, dm.2, taskType⟩

/-! ### Concrete example inputs used by witnesses and counterexamples -/

def exCite1 : Str := "The policy requires X [1].".toList
def exCite2 : Str := "No citation here.".toList
def exCite3 : Str := "See [4].".toList

/-- Ten words, each a finance keyword. -/
def finText : Str :=
  "loan mortgage investment portfolio risk compliance financial banking credit debt".toList

def exQuery : Str := "q".toList
def exChunkText : Str := "a b c".toList

def genYes1 : Str → Option Str := fun _ => some ("Yes [1].".toList)
def genNone : Str → Option Str := fun _ => none
def genYes3M : String → Str → Option Str := fun _ _ => some ("Yes [3].".toList)
def genNoneM : String → Str → Option Str := fun _ _ => none
def scorer0 : Str → Str → ℚ := fun _ _ => 0

def availEx : List String := ["llama3.1:70b", "phi3.5:3.8b-mini-instruct-q4_0"]


/-! ## Lemmas about citation extraction -/

theorem hasCiteTok_cons {l : Str} {n : ℕ} (x : Char) (h : HasCiteTok l n) :
    HasCiteTok (x :: l) n := by
  obtain ⟨pre, ds, post, hl, hne, hdig, hval⟩ := h
  exact ⟨x :: pre, ds, post, by simp [hl], hne, hdig, hval⟩

theorem takeWhile_digits_append {ds post : Str} (hds : ∀ c ∈ ds, c.isDigit) :
    (ds ++ ']' :: post).takeWhile Char.isDigit = ds ∧
    (ds ++ ']' :: post).dropWhile Char.isDigit = ']' :: post := by
  induction ds with
  | nil => simp [List.takeWhile_cons, List.dropWhile_cons]
  | cons d ds ih =>
    have hd : d.isDigit := hds d (by simp)
    have h2 := ih (fun c hc => hds c (by simp [hc]))
    simp [List.takeWhile_cons, List.dropWhile_cons, hd, h2.1, h2.2]

theorem splitAtBracket : ∀ (ds0 pre2 tail2 rest2 : Str),
    ds0 ++ ']' :: rest2 = pre2 ++ '[' :: tail2 → (∀ x ∈ ds0, x.isDigit) →
    ∃ pre3, pre2 = ds0 ++ ']' :: pre3 ∧ rest2 = pre3 ++ '[' :: tail2 := by
  intro ds0
  induction ds0 with
  | nil =>
    intro pre2 tail2 rest2 heq _
    cases pre2 with
    | nil => simp at heq
    | cons y pre3 =>
      simp only [List.nil_append, List.cons_append] at heq
      injection heq with h1 h2
      exact ⟨pre3, by rw [← h1]; simp, h2⟩
  | cons d ds ih =>
    intro pre2 tail2 rest2 heq hdig
    cases pre2 with
    | nil =>
      simp only [List.cons_append, List.nil_append] at heq
      injection heq with h1 h2
      have : ('[' : Char).isDigit := h1 ▸ hdig d (by simp)
      simp at this
    | cons y pre2' =>
      simp only [List.cons_append] at heq
      injection heq with h1 h2
      obtain ⟨pre3, h3, h4⟩ :=
        ih pre2' tail2 rest2 h2 (fun x hx => hdig x (by simp [hx]))
      exact ⟨pre3, by simp [h1, h3], h4⟩

theorem facGo_sound : ∀ (fuel : ℕ) (l : Str) (n : ℕ),
    n ∈ facGo fuel l → HasCiteTok l n := by
  intro fuel
  induction fuel with
  | zero => intro l n h; simp [facGo] at h
  | succ fuel ih =>
    intro l n h
    cases l with
    | nil => simp [facGo] at h
    | cons c rest =>
      rw [facGo] at h
      by_cases hc : c = '['
      · rw [if_pos hc] at h
        subst hc
        by_cases hm : (rest.takeWhile Char.isDigit) ≠ [] ∧
            (rest.dropWhile Char.isDigit).head? = some ']'
        · rw [if_pos hm] at h
          obtain ⟨hne, hhd⟩ := hm
          obtain ⟨tail, hdw⟩ : ∃ tail,
              rest.dropWhile Char.isDigit = ']' :: tail := by
            cases hdwe : rest.dropWhile Char.isDigit with
            | nil => rw [hdwe] at hhd; simp at hhd
            | cons a tl =>
              rw [hdwe] at hhd
              simp at hhd
              exact ⟨tl, by rw [hhd]⟩
          rw [hdw] at h
          simp only [List.tail_cons] at h
          have hrest : rest.takeWhile Char.isDigit ++ ']' :: tail = rest := by
            rw [← hdw]; exact List.takeWhile_append_dropWhile _ _
          rcases List.mem_cons.mp h with hn | hn
          · refine ⟨[], rest.takeWhile Char.isDigit, tail, ?_, hne, ?_, hn.symm⟩
            · conv_lhs => rw [← hrest]
              simp
            · exact fun c hc => List.mem_takeWhile_imp hc
          · obtain ⟨pre, ds, post, hl, hne2, hdig, hval⟩ := ih tail n hn
            refine ⟨'[' :: rest.takeWhile Char.isDigit ++ ']' :: pre, ds, post,
              ?_, hne2, hdig, hval⟩
            conv_lhs => rw [← hrest, hl]
            simp
        · rw [if_neg hm] at h
          exact hasCiteTok_cons _ (ih rest n h)
      · rw [if_neg hc] at h
        exact hasCiteTok_cons _ (ih rest n h)

theorem facGo_complete : ∀ (fuel : ℕ) (l : Str) (n : ℕ),
    l.length ≤ fuel → HasCiteTok l n → n ∈ facGo fuel l := by
  intro fuel
  induction fuel with
  | zero =>
    intro l n hlen h
    obtain ⟨pre, ds, post, hl, _, _, _⟩ := h
    have : l = [] := List.length_eq_zero.mp (Nat.le_zero.mp hlen)
    rw [this] at hl
    simp at hl
  | succ fuel ih =>
    intro l n hlen h
    obtain ⟨pre, ds, post, hl, hne, hdig, hval⟩ := h
    cases l with
    | nil => simp at hl
    | cons c rest =>
      have hlen' : rest.length ≤ fuel := by simp at hlen; omega
      cases pre with
      | nil =>
        simp only [List.nil_append] at hl
        injection hl with h1 h2
        have htw := @takeWhile_digits_append ds post hdig
        rw [facGo, if_pos h1, h2, htw.1, htw.2]
        rw [if_pos (show ds ≠ [] ∧ (']' :: post : Str).head? = some ']' from
          ⟨hne, rfl⟩)]
        simp only [List.tail_cons]
        exact hval ▸ List.mem_cons_self _ _
      | cons y pre2 =>
        simp only [List.cons_append] at hl
        injection hl with h1 hrest
        rw [facGo]
        by_cases hc : c = '['
        · rw [if_pos hc]
          by_cases hm : (rest.takeWhile Char.isDigit) ≠ [] ∧
              (rest.dropWhile Char.isDigit).head? = some ']'
          · rw [if_pos hm]
            obtain ⟨hne0, hhd⟩ := hm
            obtain ⟨tail, hdw⟩ : ∃ tail,
                rest.dropWhile Char.isDigit = ']' :: tail := by
              cases hdwe : rest.dropWhile Char.isDigit with
              | nil => rw [hdwe] at hhd; simp at hhd
              | cons a tl =>
                rw [hdwe] at hhd
                simp at hhd
                exact ⟨tl, by rw [hhd]⟩
            have hrest2 : rest.takeWhile Char.isDigit ++ ']' :: tail = rest := by
              rw [← hdw]; exact List.takeWhile_append_dropWhile _ _
            obtain ⟨pre3, hpre2, htail⟩ :=
              splitAtBracket (rest.takeWhile Char.isDigit) pre2
                (ds ++ ']' :: post) tail (hrest2.trans hrest)
                (fun x hx => List.mem_takeWhile_imp hx)
            have htok : HasCiteTok tail n := ⟨pre3, ds, post, htail, hne, hdig, hval⟩
            have hlt : tail.length ≤ fuel := by
              have hle := congrArg List.length hrest2
              simp at hle
              omega
            rw [hdw]
            simp only [List.tail_cons]
            exact List.mem_cons_of_mem _ (ih tail n hlt htok)
          · rw [if_neg hm]
            exact ih rest n hlen' ⟨pre2, ds, post, hrest, hne, hdig, hval⟩
        · rw [if_neg hc]
          exact ih rest n hlen' ⟨pre2, ds, post, hrest, hne, hdig, hval⟩

/-- The tokens returned by the scan are exactly the `[n]` tokens present
in the text. -/
theorem findAllCites_mem_iff {l : Str} {n : ℕ} :
    n ∈ findAllCites l ↔ HasCiteTok l n :=
  ⟨facGo_sound _ _ _, facGo_complete _ _ _ le_rfl⟩

/-! ## Lemmas about chunking -/

/-- Full loop invariant of `chunkLoop` in the terminating regime
`overlap_tokens < max_tokens`. -/
theorem chunkLoop_spec (maxW ovW : ℕ) (hov : ovW < maxW) :
    ∀ fuel n i, i < n → n - i < fuel →
    ∃ ws, chunkLoop maxW ovW n fuel i = some ws ∧
      ws ≠ [] ∧
      ws.head? = some (i, min (i + maxW) n) ∧
      (∀ w, i ≤ w → w < n → ∃ p ∈ ws, p.1 ≤ w ∧ w < p.2) ∧
      List.Chain' (fun p q => q.1 + ovW = p.2 ∧ p.1 < q.1 ∧ p.2 ≤ q.2) ws ∧
      (∀ p ∈ ws, p.1 < p.2 ∧ p.2 ≤ n ∧ p.2 ≤ p.1 + maxW) := by
  intro fuel
  induction fuel with
  | zero => intro n i hin hf; omega
  | succ fuel ih =>
    intro n i hin hf
    rw [chunkLoop, if_pos hin]
    by_cases hj : min (i + maxW) n = n
    · refine ⟨[(i, min (i + maxW) n)], by rw [if_pos hj], by simp, by simp, ?_, ?_, ?_⟩
      · intro w hiw hwn
        exact ⟨(i, min (i + maxW) n), by simp, hiw, by omega⟩
      · simp
      · intro p hp
        simp at hp
        subst hp
        simp
        omega
    · have hilt : i + maxW < n := by omega
      have hjval : min (i + maxW) n = i + maxW := by omega
      have hi' : i + maxW - ovW < n := by omega
      have hf' : n - (i + maxW - ovW) < fuel := by omega
      obtain ⟨ws, hws, hne, hhead, hcov, hchain, hbnd⟩ := ih n (i + maxW - ovW) hi' hf'
      rw [if_neg hj, hjval]
      refine ⟨(i, i + maxW) :: ws, ?_, by simp, by simp, ?_, ?_, ?_⟩
      · rw [hws]
        rfl
      · intro w hiw hwn
        by_cases hwj : w < i + maxW
        · exact ⟨(i, i + maxW), by simp, hiw, hwj⟩
        · obtain ⟨p, hp, h1, h2⟩ := hcov w (by omega) hwn
          exact ⟨p, by simp [hp], h1, h2⟩
      · cases ws with
        | nil => simp at hne
        | cons p0 tl =>
          simp at hhead
          refine List.Chain'.cons ?_ hchain
          rw [hhead]
          refine ⟨by simp; omega, by simp; omega, ?_⟩
          simp only [le_min_iff]
          constructor <;> omega
      · intro p hp
        rcases List.mem_cons.mp hp with h | h
        · subst h; refine ⟨by omega, by omega, by omega⟩
        · exact hbnd p h

/-- The loop never finishes when `max_tokens = overlap_tokens = 1` on a
three-word text: the window index stays at `0` forever. -/
theorem chunkLoop_stuck : ∀ fuel, chunkLoop 1 1 3 fuel 0 = none := by
  intro fuel
  induction fuel with
  | zero => rfl
  | succ fuel ih =>
    rw [chunkLoop]
    norm_num
    exact ih

theorem chunk_text_stuck : chunk_text exChunkText 1 1 = none := by
  have hw : (wordsOf exChunkText).isEmpty = false := by decide
  have hl : (wordsOf exChunkText).length = 3 := by decide
  rw [chunk_text, chunkWindows]
  simp only [hw, Bool.false_eq_true, if_false, hl, chunkLoop_stuck]
  rfl

/-! ## Lemmas about reranking -/

theorem rerankLe_trans (scores : List ℚ) : ∀ a b c,
    rerankLe scores a b = true → rerankLe scores b c = true →
    rerankLe scores a c = true := by
  intro a b c h1 h2
  simp only [rerankLe, Bool.or_eq_true, Bool.and_eq_true, decide_eq_true_eq] at h1 h2 ⊢
  rcases h1 with h1 | ⟨h1e, h1le⟩ <;> rcases h2 with h2 | ⟨h2e, h2le⟩
  · exact Or.inl (h2.trans h1)
  · exact Or.inl (h2e ▸ h1)
  · exact Or.inl (h1e ▸ h2)
  · exact Or.inr ⟨h1e.trans h2e, h1le.trans h2le⟩

theorem rerankLe_total (scores : List ℚ) : ∀ a b,
    (rerankLe scores a b || rerankLe scores b a) = true := by
  intro a b
  simp only [rerankLe, Bool.or_eq_true, Bool.and_eq_true, decide_eq_true_eq]
  rcases lt_trichotomy (scores.getD a 0) (scores.getD b 0) with h | h | h
  · exact Or.inr (Or.inl h)
  · rcases Nat.le_total a b with hab | hab
    · exact Or.inl (Or.inr ⟨h, hab⟩)
    · exact Or.inr (Or.inr ⟨h.symm, hab⟩)
  · exact Or.inl (Or.inl h)

theorem range_map_getD {α : Type} (d : α) : ∀ (l : List α),
    (List.range l.length).map (fun i => l.getD i d) = l := by
  intro l
  induction l with
  | nil => simp
  | cons a t ih =>
    rw [List.length_cons, List.range_succ_eq_map]
    simp only [List.map_cons, List.getD_cons_zero, List.map_map,
      Function.comp_def, List.getD_cons_succ]
    rw [ih]

/-- Elements of the sort order are valid indices. -/
theorem rerankOrder_perm (scores : List ℚ) :
    (rerankOrder scores).Perm (List.range scores.length) :=
  List.mergeSort_perm _ _

theorem rerankOrder_pairwise (scores : List ℚ) :
    (rerankOrder scores).Pairwise (fun a b => rerankLe scores a b = true) :=
  List.sorted_mergeSort (rerankLe_trans scores) (rerankLe_total scores) _

/-- The reranked passages are a permutation of the input. -/
theorem rerank_fst_perm (scorer : Str → Str → ℚ) (query : Str)
    (passages : List Passage) :
    ((rerank scorer query passages).1).Perm passages := by
  by_cases hemp : passages.isEmpty = true
  · have hnil := List.isEmpty_iff.mp hemp
    subst hnil
    simp [rerank]
  · have hif : (rerank scorer query passages).1 =
        (rerankOrder (rerankScores scorer query passages)).map
          (fun i => passages.getD i default) := by
      rw [rerank, if_neg (by simp [hemp])]
    set scores := rerankScores scorer query passages with hscores
    have hlen : scores.length = passages.length := by
      rw [hscores, rerankScores, List.length_map]
    rw [hif]
    have h1 : ((List.range scores.length).map
        (fun i => passages.getD i default)) = passages := by
      rw [hlen]
      exact range_map_getD default passages
    calc ((rerankOrder scores).map (fun i => passages.getD i default)).Perm
          ((List.range scores.length).map (fun i => passages.getD i default)) :=
        (rerankOrder_perm scores).map _
      _ = passages := h1

theorem rerank_fst_length (scorer : Str → Str → ℚ) (query : Str)
    (passages : List Passage) :
    ((rerank scorer query passages).1).length = passages.length :=
  (rerank_fst_perm scorer query passages).length_eq

/-- Context-map indices are between 1 and the number of ranked passages. -/
theorem contextEntries_index_le (ranked : List Passage) (k : ℕ) :
    ∀ e ∈ contextEntries ranked k, 1 ≤ e.index ∧ e.index ≤ ranked.length := by
  intro e he
  rw [contextEntries] at he
  obtain ⟨ip, hip, hei⟩ := List.mem_map.mp he
  have h1 : ip.1 ∈ (List.enumFrom 1 (ranked.take k)).map Prod.fst :=
    List.mem_map_of_mem _ hip
  rw [List.enumFrom_map_fst] at h1
  rw [List.mem_range'_1] at h1
  have h2 : (ranked.take k).length ≤ ranked.length := by
    rw [List.length_take]; omega
  rw [← hei]
  constructor <;> simp <;> omega

/-! ## Lemmas about domain scoring -/

theorem foldBest_mem (x : String × ℚ) (xs : List (String × ℚ)) :
    bestByScore x xs ∈ x :: xs := by
  induction xs generalizing x with
  | nil => simp [bestByScore]
  | cons p t ih =>
    have h := ih (if x.2 < p.2 then p else x)
    simp only [bestByScore, List.foldl_cons] at h ⊢
    rcases List.mem_cons.mp h with h1 | h1
    · rw [h1]
      split_ifs <;> simp
    · exact List.mem_cons_of_mem _ (List.mem_cons_of_mem _ h1)

theorem scoreForDomain_bounds (tl : Str) (wc : ℕ) (kws : List Str) :
    0 ≤ scoreForDomain tl wc kws ∧ scoreForDomain tl wc kws ≤ 7/5 := by
  rw [scoreForDomain]
  split_ifs with h
  · set m : ℚ := (countMatches tl kws : ℚ) with hm
    have hm0 : 0 ≤ m := by positivity
    have hden1 : (0:ℚ) < max 10 ((kws.length : ℚ) * (3/10)) :=
      lt_of_lt_of_le (by norm_num) (le_max_left _ _)
    have hden2 : (0:ℚ) < max 1 ((wc : ℚ) / 100) :=
      lt_of_lt_of_le (by norm_num) (le_max_left _ _)
    have hb0 : (0:ℚ) ≤ min 1 (m / max 10 ((kws.length : ℚ) * (3/10))) :=
      le_min (by norm_num) (div_nonneg hm0 hden1.le)
    have hb1 : min 1 (m / max 10 ((kws.length : ℚ) * (3/10))) ≤ 1 :=
      min_le_left _ _
    have ht0 : (0:ℚ) ≤ min 2 (m / max 1 ((wc : ℚ) / 100)) :=
      le_min (by norm_num) (div_nonneg hm0 hden2.le)
    have ht2 : min 2 (m / max 1 ((wc : ℚ) / 100)) ≤ 2 := min_le_left _ _
    constructor
    · have : (0:ℚ) ≤ 1 + min 2 (m / max 1 ((wc : ℚ) / 100)) * (2/10) := by linarith
      exact mul_nonneg hb0 this
    · calc min 1 (m / max 10 ((kws.length : ℚ) * (3/10))) *
            (1 + min 2 (m / max 1 ((wc : ℚ) / 100)) * (2/10))
          ≤ 1 * (1 + 2 * (2/10)) := by
            apply mul_le_mul hb1 (by linarith) (by linarith) (by norm_num)
      _ = 7/5 := by norm_num
  · norm_num

theorem domainScores_elem (text : Str) : ∀ e ∈ domainScores text,
    (0 ≤ e.2 ∧ e.2 ≤ 7/5) ∧ e.1 ≠ "general" := by
  intro e he
  rw [domainScores] at he
  obtain ⟨p, hp, hep⟩ := List.mem_map.mp he
  have hfil := List.mem_filter.mp hp
  refine ⟨?_, ?_⟩
  · rw [← hep]
    exact scoreForDomain_bounds _ _ _
  · rw [← hep]
    simpa using hfil.2

/-! ## Miscellaneous helpers -/

theorem startsWithCh_self_append : ∀ p r : Str, startsWithCh p (p ++ r) = true := by
  intro p
  induction p with
  | nil => intro r; rfl
  | cons a as ih => intro r; simp [startsWithCh, ih]

/-! ## Claim theorems -/

/-- Claim C3 (code bug).  With `overlap_tokens >= max_tokens` the window
does not advance: on the three-word input with `max_tokens =
overlap_tokens = 1` the next window start computed by the loop equals
the current one, the loop returns for no amount of fuel, and
`chunk_text` yields no result, contradicting the specified guarantee
that the window still advances by at least one word so that `chunk_text`
terminates. -/
theorem c3_overlap_no_advance :
    chunkNextIndex 1 1 3 0 = 0 ∧
    (∀ fuel, chunkLoop 1 1 3 fuel 0 = none) ∧
    chunk_text exChunkText 1 1 = none :=
  ⟨by decide, chunkLoop_stuck, chunk_text_stuck⟩

/-- Claim C4, counterexample.  With the default configuration, only the
most-capable general model and the smallest model available, and the
code-specialist model preferred, the source returns the configured
default model (the smallest one) while the documented fallback order
would pick the most-capable general model. -/
theorem c4_counterexample :
    getAvailableModel availEx defaultCfg "codellama:13b" =
      "phi3.5:3.8b-mini-instruct-q4_0" ∧
    specResolveAvailable availEx "codellama:13b" = "llama3.1:70b" ∧
    ("phi3.5:3.8b-mini-instruct-q4_0" : String) ≠ "llama3.1:70b" :=
  ⟨by decide, by decide, by decide⟩

/-- Claim C4 (amended).  `_get_available_model` returns an available
preferred model unchanged; otherwise it walks the source's fallback
list, which starts with the configured default model before the five
documented names, and returns its first available entry; if no entry is
available it returns the preferred name unchanged. -/
theorem c4_amended (avail : List String) (cfg : RagConfig) (preferred : String) :
    (avail.contains preferred = true →
      getAvailableModel avail cfg preferred = preferred) ∧
    (avail.contains preferred = false →
      ∀ m, (fallbackList cfg).find? (fun f => avail.contains f) = some m →
        getAvailableModel avail cfg preferred = m ∧ avail.contains m = true ∧
        ∃ pre post, fallbackList cfg = pre ++ m :: post ∧
          ∀ f ∈ pre, avail.contains f = false) ∧
    (avail.contains preferred = false →
      (fallbackList cfg).find? (fun f => avail.contains f) = none →
      getAvailableModel avail cfg preferred = preferred) := by
  refine ⟨?_, ?_, ?_⟩
  · intro h
    rw [getAvailableModel, if_pos h]
  · intro h m hfind
    have hres : getAvailableModel avail cfg preferred = m := by
      rw [getAvailableModel, if_neg (by simpa using h), hfind]
    obtain ⟨hm, as, bs, hsplit, hpre⟩ := List.find?_eq_some.mp hfind
    exact ⟨hres, hm, as, bs, hsplit,
      fun f hf => by simpa using hpre f hf⟩
  · intro h hfind
    rw [getAvailableModel, if_neg (by simpa using h), hfind]

/-- Claim C4, witness: with only the balanced general model available
and an unavailable preferred name, the first available fallback entry is
returned. -/
theorem c4_witness :
    (["llama3.1:8b"].contains "someModel" = false) ∧
    getAvailableModel ["llama3.1:8b"] defaultCfg "someModel" = "llama3.1:8b" :=
  ⟨by decide,
    ((c4_amended ["llama3.1:8b"] defaultCfg "someModel").2.1 (by decide)
      "llama3.1:8b" (by decide)).1⟩

/-- Claim C8.  `_has_valid_citations(answer, k)` returns true exactly
when the answer contains at least one bracketed integer citation token
and every such token's value lies in `[1, k]`; and the three concrete
examples from the specification evaluate as stated. -/
theorem c8_citation_validity :
    (∀ (a : Str) (k : ℕ), hasValidCitations a k = true ↔
      ((∃ n, HasCiteTok a n) ∧ ∀ n, HasCiteTok a n → 1 ≤ n ∧ n ≤ k)) ∧
    hasValidCitations exCite1 3 = true ∧
    hasValidCitations exCite2 3 = false ∧
    hasValidCitations exCite3 3 = false := by
  refine ⟨?_, by decide, by decide, by decide⟩
  intro a k
  simp only [hasValidCitations, Bool.and_eq_true, Bool.not_eq_true',
    List.all_eq_true, decide_eq_true_eq]
  constructor
  · rintro ⟨hne, hall⟩
    have hne' : findAllCites a ≠ [] := by
      intro hcon
      rw [hcon] at hne
      simp at hne
    obtain ⟨n, hn⟩ := List.exists_mem_of_ne_nil _ hne'
    exact ⟨⟨n, findAllCites_mem_iff.mp hn⟩,
      fun m hm => hall m (findAllCites_mem_iff.mpr hm)⟩
  · rintro ⟨⟨n, hn⟩, hall⟩
    refine ⟨?_, fun m hm => hall m (findAllCites_mem_iff.mp hm)⟩
    have : n ∈ findAllCites a := findAllCites_mem_iff.mpr hn
    rcases h : findAllCites a with _ | _
    · rw [h] at this; simp at this
    · rfl

/-- Claim C7.  `rerank` returns a permutation of the input passages; the
returned scores are non-increasing and are exactly the scores of the
returned passages; the index order is strictly sorted by "higher score
first, earlier input position among equal scores" (stable sort); and the
empty passage list yields `([], [])` for every scoring model, so the
scorer is never consulted. -/
theorem c7_rerank_ordering (scorer : Str → Str → ℚ) (query : Str)
    (passages : List Passage) :
    ((rerank scorer query passages).1).Perm passages ∧
    ((rerank scorer query passages).2).Pairwise (· ≥ ·) ∧
    (rerank scorer query passages).2 =
      ((rerank scorer query passages).1).map (fun p => scorer query p.text) ∧
    (rerankOrder (rerankScores scorer query passages)).Pairwise
      (fun a b => (rerankScores scorer query passages).getD b 0 <
          (rerankScores scorer query passages).getD a 0 ∨
        ((rerankScores scorer query passages).getD a 0 =
            (rerankScores scorer query passages).getD b 0 ∧ a < b)) ∧
    rerank scorer query [] = ([], []) := by
  have hstab : ∀ (ps : List Passage),
      (rerankOrder (rerankScores scorer query ps)).Pairwise
        (fun a b => (rerankScores scorer query ps).getD b 0 <
            (rerankScores scorer query ps).getD a 0 ∨
          ((rerankScores scorer query ps).getD a 0 =
              (rerankScores scorer query ps).getD b 0 ∧ a < b)) := by
    intro ps
    set scores := rerankScores scorer query ps with hscores
    have hnd : (rerankOrder scores).Nodup :=
      (rerankOrder_perm scores).symm.nodup (List.nodup_range _)
    have hcomb := (rerankOrder_pairwise scores).and hnd
    refine hcomb.imp ?_
    intro a b ⟨hle, hne⟩
    simp only [rerankLe, Bool.or_eq_true, Bool.and_eq_true,
      decide_eq_true_eq] at hle
    rcases hle with h | ⟨he, hab⟩
    · exact Or.inl h
    · exact Or.inr ⟨he, lt_of_le_of_ne hab hne⟩
  by_cases hemp : passages.isEmpty = true
  · have hnil : passages = [] := List.isEmpty_iff.mp hemp
    subst hnil
    refine ⟨?_, ?_, ?_, hstab [], rfl⟩ <;> simp [rerank]
  · have hif : rerank scorer query passages =
        (((rerankOrder (rerankScores scorer query passages)).map
            (fun i => passages.getD i default)),
         ((rerankOrder (rerankScores scorer query passages)).map
            (fun i => (rerankScores scorer query passages).getD i 0))) := by
      rw [rerank, if_neg (by simp [hemp])]
    set scores := rerankScores scorer query passages with hscores
    have hlen : scores.length = passages.length := by
      rw [hscores, rerankScores, List.length_map]
    have hperm := rerankOrder_perm scores
    have hmemlt : ∀ i ∈ rerankOrder scores, i < passages.length := by
      intro i hi
      have := hperm.mem_iff.mp hi
      rw [List.mem_range] at this
      omega
    refine ⟨rerank_fst_perm scorer query passages, ?_, ?_, hstab passages, rfl⟩
    · rw [hif]
      simp only [List.pairwise_map]
      refine (rerankOrder_pairwise scores).imp ?_
      intro a b hle
      simp only [rerankLe, Bool.or_eq_true, Bool.and_eq_true,
        decide_eq_true_eq] at hle
      rcases hle with h | ⟨he, _⟩
      · exact le_of_lt h
      · exact le_of_eq he.symm
    · rw [hif]
      simp only [List.map_map]
      apply List.map_congr_left
      intro i hi
      have hip : i < passages.length := hmemlt i hi
      have his : i < scores.length := by omega
      simp only [Function.comp_apply]
      rw [List.getD_eq_getElem _ _ his, List.getD_eq_getElem _ _ hip]
      simp [hscores, rerankScores]

/-- Claim C9.  The `contextMap` built by `build_prompt` carries indices
that are exactly `1..K` for `K = min(k, len(ranked))`, the prompt is the
template around the numbered context lines, and the `t`-th context line
begins with the citation marker of index `t+1`, so map indices and
embedded citation numbers agree. -/
theorem c9_contextmap (query : Str) (ranked : List Passage) (k : ℕ) :
    ((build_prompt query ranked k).2).map (fun e => e.index) =
      List.range' 1 (min k ranked.length) ∧
    (build_prompt query ranked k).1 =
      promptText (joinSep "\n\n".toList (numberedLines ranked k)) query ∧
    ∀ t, t < min k ranked.length →
      (((build_prompt query ranked k).2).getD t default).index = t + 1 ∧
      startsWithCh ('[' :: natChars (t + 1) ++ [']', ' '])
        ((numberedLines ranked k).getD t []) = true := by
  have hlen : (ranked.take k).length = min k ranked.length := by
    rw [List.length_take]
  refine ⟨?_, rfl, ?_⟩
  · show (contextEntries ranked k).map (fun e => e.index) = _
    rw [contextEntries, List.map_map]
    have : ((fun e : CtxEntry => e.index) ∘
        (fun ip : ℕ × Passage => (⟨ip.1, ip.2.doc_id, ip.2.id, ip.2.score⟩ : CtxEntry)))
        = Prod.fst := by
      funext ip
      rfl
    rw [this, List.enumFrom_map_fst, hlen]
  · intro t ht
    have htl : t < (ranked.take k).length := by omega
    have hte : t < (List.enumFrom 1 (ranked.take k)).length := by
      rw [List.enumFrom_length]; omega
    constructor
    · show ((contextEntries ranked k).getD t default).index = t + 1
      rw [contextEntries]
      rw [List.getD_eq_getElem _ _ (by simpa using hte)]
      rw [List.getElem_map]
      rw [List.getElem_enumFrom]
      simp [Nat.add_comm]
    · rw [numberedLines]
      rw [List.getD_eq_getElem _ _ (by simpa using hte)]
      rw [List.getElem_map, List.getElem_enumFrom]
      rw [numberedLine]
      have hassoc : ('[' : Char) :: natChars (1 + t) ++ ']' :: ' ' ::
          trimL (ranked.take k)[t].text ++ " (file: ".toList ++
          (ranked.take k)[t].doc_id.toList ++ ", chunk #".toList ++
          (ranked.take k)[t].id.toList ++ [')'] =
          ('[' :: natChars (1 + t) ++ [']', ' ']) ++
          (trimL (ranked.take k)[t].text ++ " (file: ".toList ++
           (ranked.take k)[t].doc_id.toList ++ ", chunk #".toList ++
           (ranked.take k)[t].id.toList ++ [')']) := by
        simp
      rw [hassoc, Nat.add_comm 1 t]
      exact startsWithCh_self_append _ _

/-- Keyword-match counts of the ten-word finance text. -/
theorem finText_matches :
    countMatches (lowerL finText) financeKws = 10 ∧
    countMatches (lowerL finText) legalKws = 0 ∧
    countMatches (lowerL finText) medicalKws = 0 ∧
    countMatches (lowerL finText) technicalKws = 0 ∧
    countMatches (lowerL finText) educationKws = 0 ∧
    (wordsOf finText).length = 10 ∧ financeKws.length = 15 :=
  ⟨by decide, by decide, by decide, by decide, by decide, by decide, by decide⟩

/-- Claim C5, counterexample.  On a ten-word text consisting of ten
finance keywords the returned confidence is `7/5 = 1.4`, outside the
closed interval `[0, 1]`: the density boost multiplies a base score of
`1` by `1.4`. -/
theorem c5_counterexample :
    detect_domain defaultCfg.min_confidence_threshold finText =
      ("finance", 7/5) ∧ ¬((7/5 : ℚ) ≤ 1) := by
  obtain ⟨cf, cl, cm, ct, ce, wc, kl⟩ := finText_matches
  constructor
  · have h1 : scoreForDomain (lowerL finText) (wordsOf finText).length
        financeKws = 7/5 := by
      rw [scoreForDomain, cf, kl, wc]
      norm_num [show (financeKws = []) = False from by simp [financeKws]]
    have h2 : scoreForDomain (lowerL finText) (wordsOf finText).length
        legalKws = 0 := by rw [scoreForDomain, cl]; norm_num
    have h3 : scoreForDomain (lowerL finText) (wordsOf finText).length
        medicalKws = 0 := by rw [scoreForDomain, cm]; norm_num
    have h4 : scoreForDomain (lowerL finText) (wordsOf finText).length
        technicalKws = 0 := by rw [scoreForDomain, ct]; norm_num
    have h5 : scoreForDomain (lowerL finText) (wordsOf finText).length
        educationKws = 0 := by rw [scoreForDomain, ce]; norm_num
    have hs : domainScores finText =
        [("finance", 7/5), ("legal", 0), ("medical", 0), ("technical", 0),
         ("education", 0)] := by
      simp [domainScores, domainKeywords, h1, h2, h3, h4, h5]
    rw [detect_domain, hs]
    norm_num [bestByScore, defaultCfg]
  · norm_num

/-- Claim C5 (amended).  The confidence returned by `detect_domain` lies
in the closed interval `[0, 7/5]` (not `[0, 1]`: the base score in
`[0,1]` is multiplied by a density factor of up to `1.4`), and the
general fallback returns confidence exactly `1`. -/
theorem c5_amended (minConf : ℚ) (text : Str) :
    0 ≤ (detect_domain minConf text).2 ∧
    (detect_domain minConf text).2 ≤ 7/5 ∧
    ((detect_domain minConf text).1 = "general" →
      (detect_domain minConf text).2 = 1) := by
  cases hds : domainScores text with
  | nil =>
    rw [detect_domain, hds]
    dsimp only
    norm_num
  | cons x xs =>
    have hmem : bestByScore x xs ∈ domainScores text := by
      rw [hds]; exact foldBest_mem x xs
    have hb := domainScores_elem text _ hmem
    rw [detect_domain, hds]
    dsimp only
    split_ifs with hth
    · exact ⟨hb.1.1, hb.1.2, fun hg => absurd hg hb.2⟩
    · exact ⟨by norm_num, by norm_num, fun _ => rfl⟩

/-- Claim C6, counterexample.  For the non-empty three-word text with
`max_tokens = overlap_tokens = 1` the chunking loop never finishes
(compare the non-advancing window of the same input), so no chunk list
is produced at all: the postcondition "at least one chunk for non-empty
text" fails as soon as `overlapWords >= maxWords`. -/
theorem c6_counterexample :
    wordsOf exChunkText ≠ [] ∧
    chunk_text exChunkText 1 1 = none ∧
    chunkLoop 1 1 3 ((wordsOf exChunkText).length + 1) 0 = none :=
  ⟨by decide, chunk_text_stuck, chunkLoop_stuck _⟩

/-- Claim C6 (amended).  In the terminating regime
`overlapWords < maxWords`, `chunk_text` satisfies the chunking
postcondition: a non-empty text produces at least one window (hence
chunk), empty or whitespace-only text produces the empty list rather
than an error, every word index is covered by some window in order,
consecutive windows share exactly `overlapWords` word positions, and
every window spans at least one and at most `maxWords` words of the
source. -/
theorem c6_amended (text : Str) (maxW ovW : ℕ) (hov : ovW < maxW) :
    ∃ ws, chunkWindows text maxW ovW = some ws ∧
      chunk_text text maxW ovW = some (ws.map (renderChunk (wordsOf text))) ∧
      (wordsOf text = [] → ws = []) ∧
      (wordsOf text ≠ [] → ws ≠ []) ∧
      (∀ w, w < (wordsOf text).length → ∃ p ∈ ws, p.1 ≤ w ∧ w < p.2) ∧
      List.Chain' (fun p q => p.1 < q.1 ∧ min p.2 q.2 - max p.1 q.1 = ovW) ws ∧
      (∀ p ∈ ws, p.1 < p.2 ∧ p.2 ≤ (wordsOf text).length ∧ p.2 - p.1 ≤ maxW) := by
  by_cases hemp : (wordsOf text).isEmpty = true
  · have hnil := List.isEmpty_iff.mp hemp
    have hcw : chunkWindows text maxW ovW = some [] := by
      simp [chunkWindows, hemp]
    refine ⟨[], hcw, ?_, fun _ => rfl, ?_, ?_, ?_, ?_⟩
    · rw [chunk_text, hcw]; rfl
    · intro h; exact absurd hnil h
    · intro w hw
      rw [hnil] at hw
      simp at hw
    · simp
    · simp
  · have hlen0 : 0 < (wordsOf text).length := by
      cases h : wordsOf text with
      | nil => rw [h] at hemp; simp at hemp
      | cons a t => simp [h]
    obtain ⟨ws, hws, hne, hhead, hcov, hchain, hbnd⟩ :=
      chunkLoop_spec maxW ovW hov ((wordsOf text).length + 1)
        (wordsOf text).length 0 hlen0 (by omega)
    have hcw : chunkWindows text maxW ovW = some ws := by
      rw [chunkWindows]
      simp only [hemp, Bool.false_eq_true, if_false]
      exact hws
    refine ⟨ws, hcw, ?_, ?_, fun _ => hne, ?_, ?_, ?_⟩
    · rw [chunk_text, hcw]; rfl
    · intro h0
      rw [h0] at hemp
      simp at hemp
    · intro w hw
      exact hcov w (Nat.zero_le w) hw
    · refine hchain.imp ?_
      intro p q ⟨h1, h2, h3⟩
      refine ⟨h2, ?_⟩
      rw [min_eq_left h3, max_eq_right h2.le]
      omega
    · intro p hp
      obtain ⟨h1, h2, h3⟩ := hbnd p hp
      exact ⟨h1, h2, by omega⟩

/-- Claim C6, witness: the three-word text with window 2 and overlap 1
satisfies the amended postcondition. -/
theorem c6_witness :
    (1 : ℕ) < 2 ∧
    (∃ ws, chunkWindows exChunkText 2 1 = some ws ∧
      chunk_text exChunkText 2 1 = some (ws.map (renderChunk (wordsOf exChunkText))) ∧
      (wordsOf exChunkText = [] → ws = []) ∧
      (wordsOf exChunkText ≠ [] → ws ≠ []) ∧
      (∀ w, w < (wordsOf exChunkText).length → ∃ p ∈ ws, p.1 ≤ w ∧ w < p.2) ∧
      List.Chain' (fun p q => p.1 < q.1 ∧ min p.2 q.2 - max p.1 q.1 = 1) ws ∧
      (∀ p ∈ ws, p.1 < p.2 ∧ p.2 ≤ (wordsOf exChunkText).length ∧ p.2 - p.1 ≤ 2)) :=
  ⟨by decide, c6_amended exChunkText 2 1 (by decide)⟩

/-- Claim C1, counterexample.  With zero retrieved passages the
generation call is still made and decides the route: a generator whose
answer carries an in-range citation makes `ask_local` return
`route = "local"` (not `"abstain"`), while a failing generator yields
`"abstain"` — so the operation neither abstains unconditionally nor
skips generation on empty retrieval. -/
theorem c1_counterexample :
    (ask_local defaultCfg scorer0 [] genYes1 genNone exQuery).route = "local" ∧
    (ask_local defaultCfg scorer0 [] genYes1 genNone exQuery).route ≠ "abstain" ∧
    (ask_local defaultCfg scorer0 [] genNone genNone exQuery).route = "abstain" :=
  ⟨by decide, by decide, by decide⟩

/-- Claim C1 (amended).  With zero retrieved passages generation is
still invoked on a prompt with empty context; `ask_local` returns
`route = "abstain"`, `answer = "not found"` and an empty context map
whenever the stripped generated answer is empty, equals "not found"
case-insensitively, or fails citation validation against
`cfg.context_k` — and only then. -/
theorem c1_amended (cfg : RagConfig) (scorer : Str → Str → ℚ)
    (genP genC : Str → Option Str) (query : Str)
    (h : localAnswer cfg scorer [] genP genC query = [] ∨
      lowerL (localAnswer cfg scorer [] genP genC query) = "not found".toList ∨
      hasValidCitations (localAnswer cfg scorer [] genP genC query)
        cfg.context_k = false) :
    ask_local cfg scorer [] genP genC query =
      ⟨"abstain", "not found".toList, []⟩ := by
  have hC : ¬(localAnswer cfg scorer [] genP genC query ≠ [] ∧
      lowerL (localAnswer cfg scorer [] genP genC query) ≠ "not found".toList ∧
      hasValidCitations (localAnswer cfg scorer [] genP genC query)
        cfg.context_k = true) := by
    rintro ⟨h1, h2, h3⟩
    rcases h with h0 | h0 | h0
    · exact h1 h0
    · exact h2 h0
    · rw [h0] at h3
      exact Bool.false_ne_true h3
  simp only [ask_local]
  rw [if_neg hC]
  have h0 : (rerank scorer query ([] : List Passage)).1 = [] := rfl
  rw [h0]
  simp [build_prompt, contextEntries]

/-- Claim C1, witness: with both generation endpoints failing and empty
retrieval, `ask_local` abstains. -/
theorem c1_witness :
    localAnswer defaultCfg scorer0 [] genNone genNone exQuery = [] ∧
    ask_local defaultCfg scorer0 [] genNone genNone exQuery =
      ⟨"abstain", "not found".toList, []⟩ :=
  ⟨by decide,
    c1_amended defaultCfg scorer0 genNone genNone exQuery (Or.inl (by decide))⟩

/-- Claim C2, counterexample.  When both the primary and the fallback
generation calls fail, `_ollama_generate_with_model` returns the empty
string and `ask_local_with_model_selection` returns the abstention
result — no error distinct from abstention reaches the caller. -/
theorem c2_counterexample :
    (askLocalWithModelSelection defaultCfg [] scorer0 [] genNoneM genNoneM
      exQuery "general").route = "abstain" ∧
    (askLocalWithModelSelection defaultCfg [] scorer0 [] genNoneM genNoneM
      exQuery "general").answer = "not found".toList ∧
    ollamaGenerateWithModel "m" genNoneM genNoneM [] = [] :=
  ⟨by decide, by decide, rfl⟩

/-- Claim C2 (amended).  If both generation calls fail the helper
returns the empty string, and the ask operation folds this into the
abstention outcome (`route = "abstain"`, `answer = "not found"`): no
hard error is propagated. -/
theorem c2_amended (cfg : RagConfig) (avail : List String)
    (scorer : Str → Str → ℚ) (hits : List Passage) (query : Str)
    (taskType : String) :
    (∀ model prompt, ollamaGenerateWithModel model (fun _ _ => none)
      (fun _ _ => none) prompt = []) ∧
    (askLocalWithModelSelection cfg avail scorer hits (fun _ _ => none)
      (fun _ _ => none) query taskType).route = "abstain" ∧
    (askLocalWithModelSelection cfg avail scorer hits (fun _ _ => none)
      (fun _ _ => none) query taskType).answer = "not found".toList := by
  have hans : wmsAnswer cfg avail scorer hits (fun _ _ => none)
      (fun _ _ => none) query taskType = [] := rfl
  have hC : ¬(wmsAnswer cfg avail scorer hits (fun _ _ => none)
      (fun _ _ => none) query taskType ≠ [] ∧
      lowerL (wmsAnswer cfg avail scorer hits (fun _ _ => none)
        (fun _ _ => none) query taskType) ≠ "not found".toList ∧
      hasValidCitations (wmsAnswer cfg avail scorer hits (fun _ _ => none)
        (fun _ _ => none) query taskType) cfg.context_k = true) :=
    fun hcon => hcon.1 hans
  refine ⟨fun model prompt => rfl, ?_, ?_⟩ <;>
    · simp only [askLocalWithModelSelection]
      rw [if_neg hC]

/-- Claim C10.  The citation gate in `ask_local_with_model_selection`
checks against `cfg.context_k`, not against the number of passages that
actually entered the prompt: with `m < context_k` retrieved passages, a
non-empty generated answer that is not "not found" and whose citations
all lie in `[1, context_k]` is accepted with `route = "local"` even when
some cited index `n` exceeds `m`, in which case no context-map entry has
index `n` (all entries have index at most `m`). -/
theorem c10_citation_gate_uses_context_k (cfg : RagConfig)
    (avail : List String) (scorer : Str → Str → ℚ) (hits : List Passage)
    (genP genC : String → Str → Option Str) (query : Str) (taskType : String)
    (n : ℕ)
    (hm : hits.length < cfg.context_k)
    (hne : wmsAnswer cfg avail scorer hits genP genC query taskType ≠ [])
    (hnf : lowerL (wmsAnswer cfg avail scorer hits genP genC query taskType) ≠
      "not found".toList)
    (hval : hasValidCitations (wmsAnswer cfg avail scorer hits genP genC query
      taskType) cfg.context_k = true)
    (hn : n ∈ findAllCites (wmsAnswer cfg avail scorer hits genP genC query
      taskType))
    (hgt : hits.length < n) :
    (askLocalWithModelSelection cfg avail scorer hits genP genC query
      taskType).route = "local" ∧
    (askLocalWithModelSelection cfg avail scorer hits genP genC query
      taskType).answer =
      wmsAnswer cfg avail scorer hits genP genC query taskType ∧
    (∀ e ∈ (askLocalWithModelSelection cfg avail scorer hits genP genC query
      taskType).contextMap, e.index ≤ hits.length ∧ e.index ≠ n) := by
  have hif : askLocalWithModelSelection cfg avail scorer hits genP genC query
      taskType =
      ⟨"local", wmsAnswer cfg avail scorer hits genP genC query taskType,
        (build_prompt query (rerank scorer query hits).1 cfg.context_k).2,
        wmsModel cfg avail query taskType,
        (detect_domain cfg.min_confidence_threshold query).1,
        (detect_domain cfg.min_confidence_threshold query).2, taskType⟩ := by
    simp only [askLocalWithModelSelection]
    rw [if_pos ⟨hne, hnf, hval⟩]
  rw [hif]
  refine ⟨rfl, rfl, ?_⟩
  intro e he
  have hidx := contextEntries_index_le ((rerank scorer query hits).1)
    cfg.context_k e he
  have hlen := rerank_fst_length scorer query hits
  rw [hlen] at hidx
  exact ⟨hidx.2, by omega⟩

/-- Claim C10, witness: zero retrieved passages, `context_k = 4`, the
generated answer "Yes [3]." is accepted as a local answer although no
context-map entry has index 3. -/
theorem c10_witness :
    ([] : List Passage).length < defaultCfg.context_k ∧
    (askLocalWithModelSelection defaultCfg [] scorer0 [] genYes3M genNoneM
      exQuery "general").route = "local" ∧
    (∀ e ∈ (askLocalWithModelSelection defaultCfg [] scorer0 [] genYes3M
        genNoneM exQuery "general").contextMap,
      e.index ≤ ([] : List Passage).length ∧ e.index ≠ 3) := by
  have h := c10_citation_gate_uses_context_k defaultCfg [] scorer0 []
    genYes3M genNoneM exQuery "general" 3 (by decide) (by decide) (by decide)
    (by decide) (by decide) (by decide)
  exact ⟨by decide, h.1, h.2.2⟩
